import Mathlib

/-!
Verification of the SynoPhotoSorter repository (photo_sorter.py).

The script sorts photo/video files from source directories into a
destination tree keyed by capture date.  We shallowly embed its pure
logic: the date resolver (get_date_taken), the conflict-safe mover
(move_file), the tree walker (process_directory) and the empty-directory
sweep (remove_empty_dirs).  Filesystem effects are modelled explicitly:
the mover sees a list of existing paths, the walker produces a trace of
actions over a directory tree, and exceptions are modelled with
Except/Option.
-/

set_option maxRecDepth 4000

namespace PhotoSorter

/-- A calendar timestamp, as carried by a Python datetime value. -/
structure DateTime where
  year : Nat
  month : Nat
  day : Nat
  hour : Nat
  minute : Nat
  second : Nat
deriving DecidableEq

/-- Numeric value of an ASCII digit character. -/
def digitVal (c : Char) : Nat := c.toNat - 48

/-- Parse exactly n digit characters, most significant first, as in the
regular expression for the strptime directive for a four-digit year. -/
def parseFixed : Nat → Nat → List Char → Option (Nat × List Char)
  | 0, acc, cs => some (acc, cs)
  | n + 1, acc, c :: cs =>
    if c.isDigit then parseFixed n (acc * 10 + digitVal c) cs else none
  | _ + 1, _, [] => none

/-- Greedy parse of one or two digit characters.  In the strptime format
used here every numeric field except the year is one of the two-digit
directives m, d, H, M, S and is followed by a non-digit literal or the
end of the string, so the greedy parse plus the range checks below is
equivalent to the alternation in the corresponding regular
expressions. -/
def parse1or2 : List Char → Option (Nat × List Char)
  | c :: d :: cs =>
    if c.isDigit then
      if d.isDigit then some (digitVal c * 10 + digitVal d, cs)
      else some (digitVal c, d :: cs)
    else none
  | [c] => if c.isDigit then some (digitVal c, []) else none
  | [] => none

/-- Consume one expected literal character. -/
def expectCh (ch : Char) : List Char → Option (List Char)
  | c :: cs => if c = ch then some cs else none
  | [] => none

/-- Gregorian leap-year rule, as used by the Python datetime module. -/
def isLeapYear (y : Nat) : Bool :=
  (y % 4 == 0 && y % 100 != 0) || y % 400 == 0

/-- Number of days in a month, as validated by the datetime constructor. -/
def daysInMonth (y m : Nat) : Nat :=
  if m = 2 then (if isLeapYear y then 29 else 28)
  else if m = 4 ∨ m = 6 ∨ m = 9 ∨ m = 11 then 30
  else 31

/-- Model of datetime.strptime(s, "%Y:%m:%d %H:%M:%S") from
get_date_taken: four year digits, colon, month, colon, day, space, hour,
colon, minute, colon, second, with nothing left over, followed by the
datetime constructor's range and calendar validation.  The result none
models a raised ValueError. -/
def strptimeYmdHms (s : String) : Option DateTime := do
  let cs := s.data
  let (y, cs) ← parseFixed 4 0 cs
  let cs ← expectCh ':' cs
  let (mo, cs) ← parse1or2 cs
  let cs ← expectCh ':' cs
  let (d, cs) ← parse1or2 cs
  let cs ← expectCh ' ' cs
  let (h, cs) ← parse1or2 cs
  let cs ← expectCh ':' cs
  let (mi, cs) ← parse1or2 cs
  let cs ← expectCh ':' cs
  let (sec, cs) ← parse1or2 cs
  if cs = [] ∧ 1 ≤ y ∧ 1 ≤ mo ∧ mo ≤ 12 ∧ 1 ≤ d ∧ d ≤ daysInMonth y mo ∧
      h ≤ 23 ∧ mi ≤ 59 ∧ sec ≤ 59 then
    some ⟨y, mo, d, h, mi, sec⟩
  else none

/-- Environment seen by get_date_taken for one run.  The field exifRead
models the block open(path); exifread.process_file(...);
tags.get(tag): an error value models an exception raised while opening
or parsing the file, ok none a missing DateTimeOriginal field, and
ok (some s) the field's textual value.  The field mtimeDate models
datetime.fromtimestamp(os.path.getmtime(path)): none models an
exception raised by that pair of calls. -/
structure FileEnv where
  exifRead : String → Except Unit (Option String)
  mtimeDate : String → Option DateTime

/-- Embedding of get_date_taken.  The first try block returns the parsed
DateTimeOriginal value when the field is present and strptime succeeds;
on an exif exception, a missing field, or a strptime ValueError it falls
through to the second try block, which returns the modification time or
none when that also raises. -/
def get_date_taken (env : FileEnv) (path : String) : Option DateTime :=
  match env.exifRead path with
  | .ok (some s) =>
    match strptimeYmdHms s with
    | some d => some d
    | none => env.mtimeDate path
  | .ok none => env.mtimeDate path
  | .error _ => env.mtimeDate path

/-- Contents of one file as far as the date resolver can observe it:
the raw DateTimeOriginal field if any, and the file's modification
time. -/
structure FSFile where
  exifField : Option String
  mtimeDate : Option DateTime

/-- The FileEnv induced by a filesystem with a given set of files: a
missing path makes open raise FileNotFoundError and os.path.getmtime
raise OSError. -/
def envOfFS (fs : String → Option FSFile) : FileEnv where
  exifRead p :=
    match fs p with
    | none => .error ()
    | some f => .ok f.exifField
  mtimeDate p :=
    match fs p with
    | none => none
    | some f => f.mtimeDate

/-- MEDIA_EXTS from photo_sorter.py. -/
def MEDIA_EXTS : List String :=
  ["jpg", "jpeg", "png", "heic", "mov", "mp4", "gif", "avi", "mpg", "mpeg",
   "cr2", "cr3", "nef", "arw", "dng", "raf", "rw2"]

/-- EXCLUDE_DIRS from photo_sorter.py. -/
def EXCLUDE_DIRS : List String := ["@eaDir"]

/-- IGNORE_FILES from photo_sorter.py. -/
def IGNORE_FILES : List String := ["Thumbs.db", ".DS_Store", "@eaDir"]

/-- Embedding of str.split at a one-character separator: splits at every
occurrence and keeps empty pieces, so the result is always nonempty.
The first argument accumulates the current piece in reverse. -/
def splitCharAux (sep : Char) (acc : List Char) :
    List Char → List (List Char)
  | [] => [acc.reverse]
  | c :: cs =>
    if c = sep then acc.reverse :: splitCharAux sep [] cs
    else splitCharAux sep (c :: acc) cs

/-- Embedding of str.lower on the ASCII names the script handles. -/
def strToLower (s : String) : String := ⟨s.data.map Char.toLower⟩

/-- Embedding of the expression file.lower().split(".")[-1] from
process_directory: the substring after the last dot of the lower-cased
name, or the whole lower-cased name when it has no dot.  The split
result is never empty, so the default of getLastD is never used. -/
def extOf (file : String) : String :=
  ⟨(splitCharAux '.' [] (strToLower file).data).getLastD []⟩

/-- Embedding of os.path.join for the relative names produced by
os.walk. -/
def joinPath (a b : String) : String := a ++ "/" ++ b

/-- Embedding of os.path.basename: the part after the last slash. -/
def basename (p : String) : String :=
  ⟨(splitCharAux '/' [] p.data).getLastD []⟩

/-- ASCII character of one decimal digit. -/
def natDigitChar (d : Nat) : Char := Char.ofNat (48 + d)

/-- Decimal digit characters of a natural number, most significant
first, without leading zeros (zero itself prints as one digit), guarded
by a fuel argument so that the recursion is structural; any fuel above
the number itself is enough.  This is how a Python f-string renders the
int counter of move_file. -/
def natDecDigitsAux : Nat → Nat → List Char
  | 0, _ => []
  | fuel + 1, n =>
    if n < 10 then [natDigitChar n]
    else natDecDigitsAux fuel (n / 10) ++ [natDigitChar (n % 10)]

/-- Decimal rendering of a natural number as a string. -/
def natToDec (n : Nat) : String := ⟨natDecDigitsAux (n + 1) n⟩

/-- Embedding of os.path.splitext on a basename (no separators): the
extension starts at the last dot, unless every character before that dot
is itself a dot (so a leading-dot name such as .DS_Store has no
extension).  Returns the pair of root and extension, the dot belonging
to the extension. -/
def splitextB (name : String) : String × String :=
  let cs := name.data
  let dotIdxs := (List.range cs.length).filter (fun i => cs.getD i ' ' = '.')
  match dotIdxs.getLast? with
  | none => (name, "")
  | some i =>
    if (List.range i).all (fun j => cs.getD j ' ' = '.') then (name, "")
    else (⟨cs.take i⟩, ⟨cs.drop i⟩)

/-- Candidate name with the conflict counter inserted before the
extension, the f-string base_counter-ext of move_file. -/
def conflictName (base ext : String) (n : Nat) : String :=
  base ++ "_" ++ natToDec n ++ ext

/-- Full candidate destination path for counter value n. -/
def conflictPath (dest base ext : String) (n : Nat) : String :=
  joinPath dest (conflictName base ext n)

/-- Embedding of the while loop of move_file: try ascending counter
values from the given one, returning the first candidate path that is
not an existing path.  The filesystem is the list fs of existing paths
and os.path.exists is membership; the fuel argument bounds the search
and is given enough supply by move_file_dest (see
exists_conflictPath_not_mem). -/
def findFreeDest (fs : List String) (dest base ext : String) :
    Nat → Nat → Option String
  | 0, _ => none
  | fuel + 1, counter =>
    let p := conflictPath dest base ext counter
    if p ∈ fs then findFreeDest fs dest base ext fuel (counter + 1)
    else some p

/-- Destination path chosen by move_file for a source path src moved
into directory dest when the existing paths are fs: the plain basename
when free, otherwise the first conflict-counter name starting from 1.
shutil.move then moves the file to this path. -/
def move_file_dest (fs : List String) (src dest : String) : Option String :=
  let name := basename src
  let destPath := joinPath dest name
  if destPath ∈ fs then
    let be := splitextB name
    findFreeDest fs dest be.1 be.2 (fs.length + 1) 1
  else some destPath

/-- A directory tree: named subdirectories and file names.  This models
the part of the filesystem under one source root as seen by os.walk and
os.listdir. -/
inductive FSTree where
  | node (dirs : List (String × FSTree)) (files : List String)

/-- Immediate subdirectory list of a tree node. -/
def FSTree.dirs : FSTree → List (String × FSTree)
  | .node ds _ => ds

/-- Immediate file list of a tree node. -/
def FSTree.files : FSTree → List String
  | .node _ fs => fs

/-- Induction principle for FSTree: to prove a property of every tree it
suffices to prove it of a node assuming it of every immediate
subtree. -/
theorem FSTree.ind (P : FSTree → Prop)
    (h : ∀ dirs files, (∀ p ∈ dirs, P p.2) → P (FSTree.node dirs files))
    (t : FSTree) : P t := by
  have H : ∀ n t, sizeOf t ≤ n → P t := by
    intro n
    induction n with
    | zero =>
      intro t ht
      cases t with
      | node dirs files => simp at ht
    | succ n ih =>
      intro t ht
      cases t with
      | node dirs files =>
        apply h
        intro p hp
        apply ih
        have h1 := List.sizeOf_lt_of_mem hp
        obtain ⟨a, b⟩ := p
        simp at h1 ht ⊢
        omega
  exact H (sizeOf t) t le_rfl

/-- Name test of the list comprehension in remove_empty_dirs: an entry
name is filtered out of the contents when it is an IGNORE_FILES member
or starts with one of them. -/
def isIgnorable (f : String) : Bool :=
  IGNORE_FILES.contains f || IGNORE_FILES.any (fun ig => f.startsWith ig)

/-- Entry names of a directory as returned by os.listdir: subdirectory
names together with file names. -/
def entryNames (t : FSTree) : List String :=
  t.dirs.map Prod.fst ++ t.files

/-- Contents of a directory after the IGNORE_FILES filter of
remove_empty_dirs; the directory is removed exactly when this is
empty. -/
def visibleContents (t : FSTree) : List String :=
  (entryNames t).filter (fun f => !isIgnorable f)

mutual
/-- Embedding of remove_empty_dirs on the subtree rooted at the
directory path: os.walk(path, topdown=False) visits every subtree bottom
up, and at each visited directory every immediate subdirectory whose
filtered contents are empty is removed with shutil.rmtree.  Since
children are visited before their parent and the contents are listed
fresh at evaluation time, this is equivalent to first sweeping every
subtree and then dropping the swept children that became empty of
visible contents.  Returns the remaining tree and the list of removed
directory paths in removal order.  The walked directory itself is never
a candidate: os.walk never lists it as a subdirectory of anything. -/
def remove_empty_dirs (path : String) : FSTree → FSTree × List String
  | .node dirs files =>
    let swept := sweepChildren path dirs
    let kept := swept.1.filter (fun nt => !(visibleContents nt.2).isEmpty)
    let removed := (swept.1.filter (fun nt => (visibleContents nt.2).isEmpty)).map
      (fun nt => joinPath path nt.1)
    (.node kept files, swept.2 ++ removed)
  termination_by t => sizeOf t

/-- Sweep of a list of named subtrees under a common parent path,
collecting the removal logs in order. -/
def sweepChildren (path : String) :
    List (String × FSTree) → List (String × FSTree) × List String
  | [] => ([], [])
  | (n, t) :: rest =>
    let r := remove_empty_dirs (joinPath path n) t
    let rs := sweepChildren path rest
    ((n, r.1) :: rs.1, r.2 ++ rs.2)
  termination_by l => sizeOf l
end

/-- Filtering a list never increases its sizeOf; used for termination of
the walker, whose recursion descends into the pruned subdirectory
list. -/
theorem sizeOf_filter_le {α} [SizeOf α] (p : α → Bool) (l : List α) :
    sizeOf (l.filter p) ≤ sizeOf l := by
  induction l with
  | nil => simp
  | cons a l ih =>
    rw [List.filter_cons]
    split <;> simp <;> omega

/-- One event of the walker's per-file step in process_directory. -/
inductive Action where
  | moved (src destDir : String)
  | skipUnknown (path : String)
  | skipNoDate (path : String)
deriving DecidableEq

/-- Environment of one process_directory run: the date-resolution
environment, the PHOTOS_BASE destination root, and for every source path
whether the shutil.move call inside move_file would succeed (false
models a raised OSError: permissions, disk full and the like). -/
structure WalkEnv where
  fileEnv : FileEnv
  photosBase : String
  moveOk : String → Bool

/-- Two-digit zero-padded month as produced by strftime directive m. -/
def pad2 (n : Nat) : String :=
  if n < 10 then "0" ++ natToDec n else natToDec n

/-- Embedding of the destination folder computation of
process_directory: PHOTOS_BASE joined with the strftime year and
zero-padded month of the resolved date. -/
def destFolder (photosBase : String) (d : DateTime) : String :=
  joinPath (joinPath photosBase (natToDec d.year)) (pad2 d.month)

/-- Embedding of the per-file loop body of process_directory over one
directory's file list.  A file whose extension is outside MEDIA_EXTS is
logged as skipped; a media file without a resolvable date is logged and
skipped; otherwise move_file is invoked, and since no exception handler
surrounds that call, a move failure propagates and aborts the walk: the
error value carries the offending path and the remaining files are not
visited. -/
def processFiles (env : WalkEnv) (root : String) :
    List String → Except String (List Action)
  | [] => .ok []
  | f :: rest =>
    let path := joinPath root f
    if MEDIA_EXTS.contains (extOf f) then
      match get_date_taken env.fileEnv path with
      | none => (processFiles env root rest).map (Action.skipNoDate path :: .)
      | some d =>
        if env.moveOk path then
          (processFiles env root rest).map
            (Action.moved path (destFolder env.photosBase d) :: .)
        else .error path
    else (processFiles env root rest).map (Action.skipUnknown path :: .)

mutual
/-- Embedding of the os.walk loop of process_directory (before the final
remove_empty_dirs call): the current directory's files are processed
first, then the walk descends into the subdirectories whose names
survive the EXCLUDE_DIRS pruning, in order.  An uncaught move failure
aborts the whole walk. -/
def processWalk (env : WalkEnv) (root : String) :
    FSTree → Except String (List Action)
  | .node dirs files => do
    let acts ← processFiles env root files
    let rest ← processDirsW env root
      (dirs.filter (fun nt => !EXCLUDE_DIRS.contains nt.1))
    pure (acts ++ rest)
  termination_by t => sizeOf t
  decreasing_by exact lt_of_le_of_lt (sizeOf_filter_le _ _) (by simp; omega)

/-- Walk of a list of named subtrees under a common root, concatenating
their action traces. -/
def processDirsW (env : WalkEnv) (root : String) :
    List (String × FSTree) → Except String (List Action)
  | [] => .ok []
  | (n, t) :: rest => do
    let a ← processWalk env (joinPath root n) t
    let b ← processDirsW env root rest
    pure (a ++ b)
  termination_by l => sizeOf l
end

mutual
/-- Tree with every subdirectory whose name is in EXCLUDE_DIRS removed,
at every depth: how the source tree looks if the excluded directories
did not exist at all. -/
def pruneExcluded : FSTree → FSTree
  | .node dirs files => .node (pruneChildren dirs) files
  termination_by t => sizeOf t

/-- Pruning of a named-subtree list. -/
def pruneChildren : List (String × FSTree) → List (String × FSTree)
  | [] => []
  | (n, t) :: rest =>
    if EXCLUDE_DIRS.contains n then pruneChildren rest
    else (n, pruneExcluded t) :: pruneChildren rest
  termination_by l => sizeOf l
end

mutual
/-- Test that every attempted move in a walk would succeed: every file
with a media extension and a resolvable date, in the tree with excluded
directories pruned, has a succeeding move. -/
def allMovesOk (env : WalkEnv) (root : String) : FSTree → Bool
  | .node dirs files =>
    files.all (fun f =>
      !(MEDIA_EXTS.contains (extOf f)) ||
      ((get_date_taken env.fileEnv (joinPath root f)).isNone ||
        env.moveOk (joinPath root f))) &&
    allMovesOkDirs env root (dirs.filter (fun nt => !EXCLUDE_DIRS.contains nt.1))
  termination_by t => sizeOf t
  decreasing_by exact lt_of_le_of_lt (sizeOf_filter_le _ _) (by simp; omega)

/-- Conjunction of allMovesOk over a named-subtree list. -/
def allMovesOkDirs (env : WalkEnv) (root : String) :
    List (String × FSTree) → Bool
  | [] => true
  | (n, t) :: rest =>
    allMovesOk env (joinPath root n) t && allMovesOkDirs env root rest
  termination_by l => sizeOf l
end

mutual
/-- Test that a tree contains no directory whose filtered contents are
empty: every immediate subdirectory, at every depth, still has some
visible (non-ignorable) entry.  This is the shape remove_empty_dirs is
meant to leave behind. -/
def noJunkOnlyDirs : FSTree → Bool
  | .node dirs _ => noJunkOnlyDirsL dirs
  termination_by t => sizeOf t

/-- Conjunction of the junk-free condition over a named-subtree list. -/
def noJunkOnlyDirsL : List (String × FSTree) → Bool
  | [] => true
  | (_, t) :: rest =>
    (!(visibleContents t).isEmpty && noJunkOnlyDirs t) && noJunkOnlyDirsL rest
  termination_by l => sizeOf l
end

/-- A walk environment with no metadata, no modification times and
always-succeeding moves; used to instantiate hypotheses at concrete
inputs. -/
def plainEnv : WalkEnv where
  fileEnv := ⟨fun _ => .ok none, fun _ => none⟩
  photosBase := "/photos"
  moveOk := fun _ => true

/-- A walk environment where every file resolves to the fixed date
2023-05-10 through its modification time and every move succeeds. -/
def datedEnv : WalkEnv where
  fileEnv := ⟨fun _ => .error (), fun _ => some ⟨2023, 5, 10, 0, 0, 0⟩⟩
  photosBase := "/photos"
  moveOk := fun _ => true

/-- A walk environment where every file resolves to the fixed date
2023-05-10 but the move of r/a.jpg raises; exhibits an uncaught move
failure. -/
def abortEnv : WalkEnv where
  fileEnv := ⟨fun _ => .error (), fun _ => some ⟨2023, 5, 10, 0, 0, 0⟩⟩
  photosBase := "/photos"
  moveOk := fun p => p != "r/a.jpg"

/-! Helper lemmas shared between the claim theorems. -/

/-- With no usable metadata (an exif exception, a missing field, or a
field strptime rejects), get_date_taken falls through to the
modification-time block. -/
theorem get_date_taken_no_meta (env : FileEnv) (path : String)
    (h : env.exifRead path = .error () ∨ env.exifRead path = .ok none ∨
      ∃ s, env.exifRead path = .ok (some s) ∧ strptimeYmdHms s = none) :
    get_date_taken env path = env.mtimeDate path := by
  rcases h with h | h | ⟨s, h1, h2⟩ <;> simp [get_date_taken, *]

/-- Splitting a list that contains no separator yields one piece. -/
theorem splitCharAux_no_sep (sep : Char) :
    ∀ (cs acc : List Char), (∀ c ∈ cs, c ≠ sep) →
      splitCharAux sep acc cs = [acc.reverse ++ cs] := by
  intro cs
  induction cs with
  | nil => intro acc h; simp [splitCharAux]
  | cons c cs ih =>
    intro acc h
    have hc : c ≠ sep := h c (by simp)
    simp only [splitCharAux, if_neg hc]
    rw [ih (c :: acc) (fun x hx => h x (List.mem_cons_of_mem _ hx))]
    simp

/-- Lower-casing a character other than the dot never produces the dot:
the branch for basic latin capitals lands in the range of small letters,
and the other branch is the identity. -/
theorem toLower_ne_dot (c : Char) (h : c ≠ '.') : c.toLower ≠ '.' := by
  unfold Char.toLower
  dsimp only
  split
  case isTrue hr =>
    have hb : ∀ n < 91, 65 ≤ n → Char.ofNat (n + 32) ≠ '.' := by decide
    exact hb c.toNat (by omega) hr.1
  case isFalse hr => exact h

/-- C5: for every file whose embedded capture metadata is readable and
contains an original-date field that strptime accepts in the pattern
YYYY:MM:DD HH:MM:SS, get_date_taken returns exactly the parsed field,
whatever the modification-time oracle says, hence independently of the
filesystem modification time. -/
theorem claim_C5 (ex : String → Except Unit (Option String))
    (mt : String → Option DateTime) (path s : String) (d : DateTime)
    (hex : ex path = .ok (some s)) (hs : strptimeYmdHms s = some d) :
    get_date_taken ⟨ex, mt⟩ path = some d := by
  simp [get_date_taken, hex, hs]

/-- Witness for C5 at a concrete file whose exif field reads
2023:05:10 08:30:00 while the modification time says 1999. -/
theorem claim_C5_witness :
    (fun _ : String =>
        (Except.ok (some "2023:05:10 08:30:00") : Except Unit (Option String))) "p" =
      Except.ok (some "2023:05:10 08:30:00") ∧
    strptimeYmdHms "2023:05:10 08:30:00" = some ⟨2023, 5, 10, 8, 30, 0⟩ ∧
    get_date_taken
      ⟨fun _ => .ok (some "2023:05:10 08:30:00"),
        fun _ => some ⟨1999, 1, 1, 0, 0, 0⟩⟩ "p" = some ⟨2023, 5, 10, 8, 30, 0⟩ :=
  ⟨rfl, by decide, claim_C5 _ _ "p" _ _ rfl (by decide)⟩

/-- C6: for every file lacking usable embedded capture metadata (exif
exception, missing field, or a field value strptime rejects),
get_date_taken returns the result of the modification-time lookup. -/
theorem claim_C6 (env : FileEnv) (path : String)
    (h : env.exifRead path = .error () ∨ env.exifRead path = .ok none ∨
      ∃ s, env.exifRead path = .ok (some s) ∧ strptimeYmdHms s = none) :
    get_date_taken env path = env.mtimeDate path :=
  get_date_taken_no_meta env path h

/-- Witness for C6 at a concrete file with no exif field and
modification time 2022-11-02. -/
theorem claim_C6_witness :
    (FileEnv.mk (fun _ => .ok none) (fun _ => some ⟨2022, 11, 2, 0, 0, 0⟩)).exifRead "p" =
      Except.ok none ∧
    get_date_taken
      (FileEnv.mk (fun _ => .ok none) (fun _ => some ⟨2022, 11, 2, 0, 0, 0⟩)) "p" =
      some ⟨2022, 11, 2, 0, 0, 0⟩ :=
  ⟨rfl, claim_C6 _ "p" (Or.inr (Or.inl rfl))⟩

/-- C7: for a visited file with no usable embedded metadata whose
modification time also raises, get_date_taken returns none and the
per-file step of the walker only logs a skip for it (skipNoDate when its
extension is a media extension, skipUnknown otherwise) and goes on with
the remaining files unchanged: it is never the source of a moved
action. -/
theorem claim_C7 (env : WalkEnv) (root f : String) (rest : List String)
    (hmeta : env.fileEnv.exifRead (joinPath root f) = .error () ∨
      env.fileEnv.exifRead (joinPath root f) = .ok none ∨
      ∃ s, env.fileEnv.exifRead (joinPath root f) = .ok (some s) ∧
        strptimeYmdHms s = none)
    (hmt : env.fileEnv.mtimeDate (joinPath root f) = none) :
    get_date_taken env.fileEnv (joinPath root f) = none ∧
    processFiles env root (f :: rest) =
      (processFiles env root rest).map
        ((if extOf f ∈ MEDIA_EXTS then Action.skipNoDate (joinPath root f)
          else Action.skipUnknown (joinPath root f)) :: .) := by
  have h0 : get_date_taken env.fileEnv (joinPath root f) = none :=
    (get_date_taken_no_meta env.fileEnv (joinPath root f) hmeta).trans hmt
  refine ⟨h0, ?_⟩
  by_cases hm : extOf f ∈ MEDIA_EXTS
  · simp [processFiles, hm, h0]
  · simp [processFiles, hm]

/-- Witness for C7 at a concrete vanished media file under plainEnv. -/
theorem claim_C7_witness :
    plainEnv.fileEnv.exifRead (joinPath "r" "a.jpg") = Except.ok none ∧
    plainEnv.fileEnv.mtimeDate (joinPath "r" "a.jpg") = none ∧
    get_date_taken plainEnv.fileEnv (joinPath "r" "a.jpg") = none ∧
    processFiles plainEnv "r" ["a.jpg"] =
      Except.ok [Action.skipNoDate (joinPath "r" "a.jpg")] := by
  have h := claim_C7 plainEnv "r" "a.jpg" [] (Or.inr (Or.inl rfl)) rfl
  refine ⟨rfl, rfl, h.1, ?_⟩
  rw [h.2]
  rfl

/-- C8: a visited file whose lower-cased extension is outside MEDIA_EXTS
contributes exactly one skipUnknown event to the trace and the walk over
the remaining files is unchanged; in particular the file is the source
of no moved action. -/
theorem claim_C8 (env : WalkEnv) (root f : String) (rest : List String)
    (h : extOf f ∉ MEDIA_EXTS) :
    processFiles env root (f :: rest) =
      (processFiles env root rest).map
        (Action.skipUnknown (joinPath root f) :: .) := by
  simp [processFiles, h]

/-- Witness for C8 at a concrete text file. -/
theorem claim_C8_witness :
    extOf "notes.txt" ∉ MEDIA_EXTS ∧
    processFiles plainEnv "r" ["notes.txt"] =
      Except.ok [Action.skipUnknown (joinPath "r" "notes.txt")] := by
  refine ⟨by decide, ?_⟩
  rw [claim_C8 plainEnv "r" "notes.txt" [] (by decide)]
  rfl

/-- C9: the classifier takes the piece after the last dot of the
lower-cased name, so a dotless name is classified by its entire
lower-cased self; when that whole name is a media extension (such as a
file literally named mov) the walker treats the file as media and, with
a resolvable date and a succeeding move, emits a moved action for it
instead of a skip. -/
theorem claim_C9 (f : String) (hnd : ∀ c ∈ f.data, c ≠ '.') :
    extOf f = strToLower f ∧
    (∀ (env : WalkEnv) (root : String) (rest : List String) (d : DateTime),
      strToLower f ∈ MEDIA_EXTS →
      get_date_taken env.fileEnv (joinPath root f) = some d →
      env.moveOk (joinPath root f) = true →
      processFiles env root (f :: rest) =
        (processFiles env root rest).map
          (Action.moved (joinPath root f) (destFolder env.photosBase d) :: .)) := by
  have hdf : ∀ c ∈ (strToLower f).data, c ≠ '.' := by
    intro c hc
    simp only [strToLower] at hc
    obtain ⟨a, ha, rfl⟩ := List.mem_map.mp hc
    exact toLower_ne_dot a (hnd a ha)
  have hext : extOf f = strToLower f := by
    simp only [extOf, splitCharAux_no_sep '.' (strToLower f).data [] hdf]
    simp [strToLower]
  refine ⟨hext, ?_⟩
  intro env root rest d hm hd hmv
  simp [processFiles, hext, hm, hd, hmv]

/-- Witness for C9 at the dotless name mov under datedEnv. -/
theorem claim_C9_witness :
    (∀ c ∈ "mov".data, c ≠ '.') ∧
    strToLower "mov" ∈ MEDIA_EXTS ∧
    get_date_taken datedEnv.fileEnv (joinPath "r" "mov") =
      some ⟨2023, 5, 10, 0, 0, 0⟩ ∧
    datedEnv.moveOk (joinPath "r" "mov") = true ∧
    extOf "mov" = strToLower "mov" ∧
    processFiles datedEnv "r" ["mov"] =
      Except.ok [Action.moved (joinPath "r" "mov")
        (destFolder "/photos" ⟨2023, 5, 10, 0, 0, 0⟩)] := by
  have h := claim_C9 "mov" (by decide)
  have h2 := h.2 datedEnv "r" [] ⟨2023, 5, 10, 0, 0, 0⟩ (by decide) (by decide)
    (by decide)
  refine ⟨by decide, by decide, by decide, by decide, h.1, ?_⟩
  rw [h2]
  rfl

/-- C10: get_date_taken is total over the induced environment of any
filesystem: in particular, on a path that does not exist (so that both
the exif read and the modification-time lookup raise) it returns none
rather than propagating the exceptions, as the repository's test on
nonexistent_file.jpg asserts. -/
theorem claim_C10 (fs : String → Option FSFile) (path : String)
    (h : fs path = none) :
    get_date_taken (envOfFS fs) path = none := by
  simp [get_date_taken, envOfFS, h]

/-- Witness for C10 on the empty filesystem at the test's concrete
path. -/
theorem claim_C10_witness :
    (fun _ : String => (none : Option FSFile)) "nonexistent_file.jpg" = none ∧
    get_date_taken (envOfFS (fun _ => none)) "nonexistent_file.jpg" = none :=
  ⟨rfl, claim_C10 (fun _ => none) "nonexistent_file.jpg" rfl⟩

/-- Pruning a named-subtree list filters out the excluded names and
prunes the survivors. -/
theorem pruneChildren_eq (l : List (String × FSTree)) :
    pruneChildren l =
      (l.filter (fun nt => !EXCLUDE_DIRS.contains nt.1)).map
        (fun nt => (nt.1, pruneExcluded nt.2)) := by
  induction l with
  | nil => simp [pruneChildren]
  | cons a l ih =>
    obtain ⟨n, t⟩ := a
    by_cases h : n ∈ EXCLUDE_DIRS <;>
      simp [pruneChildren, h, ih, List.filter_cons]

/-- Walking a list of subtrees is unchanged when every subtree is
replaced by a walk-equivalent one. -/
theorem processDirsW_congr (env : WalkEnv) (root : String) :
    ∀ l : List (String × FSTree),
      (∀ nt ∈ l, ∀ r, processWalk env r nt.2 = processWalk env r (pruneExcluded nt.2)) →
      processDirsW env root l =
        processDirsW env root (l.map (fun nt => (nt.1, pruneExcluded nt.2))) := by
  intro l
  induction l with
  | nil => intro _; simp
  | cons a l ih =>
    intro h
    obtain ⟨n, t⟩ := a
    simp only [List.map_cons, processDirsW]
    rw [← h (n, t) (by simp) (joinPath root n),
      ← ih (fun nt hm r => h nt (List.mem_cons_of_mem _ hm) r)]

/-- C2 (amended): the walker behaves on any tree exactly as it behaves
on the tree with every EXCLUDE_DIRS-named subdirectory (and all its
contents) deleted at every depth: excluded subdirectories are never
visited, none of their files is moved or logged as processed.  The
original claim's cleanup half is false: remove_empty_dirs does not prune
excluded names and deletes an excluded directory once its filtered
contents are empty (see the counterexample). -/
theorem claim_C2 (env : WalkEnv) (root : String) (t : FSTree) :
    processWalk env root t = processWalk env root (pruneExcluded t) := by
  induction t using FSTree.ind generalizing root with
  | _ dirs files ih =>
    have hpc : (pruneChildren dirs).filter (fun nt => !EXCLUDE_DIRS.contains nt.1) =
        (dirs.filter (fun nt => !EXCLUDE_DIRS.contains nt.1)).map
          (fun nt => (nt.1, pruneExcluded nt.2)) := by
      rw [pruneChildren_eq, List.filter_map]
      have hcomp : ((fun nt : String × FSTree => !EXCLUDE_DIRS.contains nt.1) ∘
          (fun nt : String × FSTree => (nt.1, pruneExcluded nt.2))) =
          (fun nt : String × FSTree => !EXCLUDE_DIRS.contains nt.1) := rfl
      rw [hcomp, List.filter_filter]
      have hband : (fun a : String × FSTree =>
          !EXCLUDE_DIRS.contains a.1 && !EXCLUDE_DIRS.contains a.1) =
          (fun nt : String × FSTree => !EXCLUDE_DIRS.contains nt.1) := by
        funext a
        simp
      rw [hband]
    have hd : processDirsW env root
        (dirs.filter (fun nt => !EXCLUDE_DIRS.contains nt.1)) =
        processDirsW env root
          ((pruneChildren dirs).filter (fun nt => !EXCLUDE_DIRS.contains nt.1)) := by
      rw [hpc]
      exact processDirsW_congr env root _
        (fun nt hm r => ih nt (List.mem_of_mem_filter hm) r)
    show processWalk env root (FSTree.node dirs files) =
      processWalk env root (pruneExcluded (FSTree.node dirs files))
    rw [show pruneExcluded (FSTree.node dirs files) =
      FSTree.node (pruneChildren dirs) files from by rw [pruneExcluded]]
    simp only [processWalk, FSTree.dirs, FSTree.files]
    rw [hd]

/-- Counterexample to C2 as stated: a directory named @eaDir, although
in EXCLUDE_DIRS, is deleted by the cleanup sweep: under a root whose
only entry is an empty @eaDir, remove_empty_dirs removes r/@eaDir (its
filtered contents are empty) and logs it, leaving the root bare. -/
theorem claim_C2_counterexample :
    "@eaDir" ∈ EXCLUDE_DIRS ∧
    remove_empty_dirs "r" (FSTree.node [("@eaDir", FSTree.node [] [])] []) =
      (FSTree.node [] [], ["r/@eaDir"]) := by
  constructor
  · decide
  · simp [remove_empty_dirs, sweepChildren, visibleContents, entryNames,
      FSTree.dirs, FSTree.files, isIgnorable, joinPath, IGNORE_FILES]

/-- First components of a swept child list: each child is swept
recursively under its own path and kept in place. -/
theorem sweepChildren_fst (path : String) :
    ∀ l : List (String × FSTree),
      (sweepChildren path l).1 =
        l.map (fun nt => (nt.1, (remove_empty_dirs (joinPath path nt.1) nt.2).1)) := by
  intro l
  induction l with
  | nil => simp [sweepChildren]
  | cons a l ih =>
    obtain ⟨n, t⟩ := a
    simp [sweepChildren, ih]

/-- The list form of the junk-free condition is an all-quantifier. -/
theorem noJunkOnlyDirsL_eq_all (l : List (String × FSTree)) :
    noJunkOnlyDirsL l =
      l.all (fun nt => !(visibleContents nt.2).isEmpty && noJunkOnlyDirs nt.2) := by
  induction l with
  | nil => simp [noJunkOnlyDirsL]
  | cons a l ih =>
    obtain ⟨n, t⟩ := a
    simp [noJunkOnlyDirsL, ih]

/-- C3 (amended): after the sweep, no directory strictly below the
swept root retains only ignorable contents: every directory whose
entries were all ignorable junk, including parents that only became
junk-only after a child directory was removed in the same pass, has been
removed.  The original claim's parenthetical about the root itself is
false: os.walk never lists the walked root as a removable child, so the
source root survives even when junk-only (see the counterexample). -/
theorem claim_C3 (path : String) (t : FSTree) :
    noJunkOnlyDirs (remove_empty_dirs path t).1 = true := by
  induction t using FSTree.ind generalizing path with
  | _ dirs files ih =>
    simp only [remove_empty_dirs, noJunkOnlyDirs]
    rw [noJunkOnlyDirsL_eq_all, List.all_eq_true]
    intro nt hnt
    rw [List.mem_filter] at hnt
    obtain ⟨hmem, hvis⟩ := hnt
    rw [sweepChildren_fst path dirs] at hmem
    obtain ⟨orig, horig, rfl⟩ := List.mem_map.mp hmem
    simp only [Bool.and_eq_true]
    exact ⟨hvis, ih orig horig _⟩

/-- Counterexample to C3 as stated: a source root with zero entries has
only ignorable contents, yet the sweep removes nothing and leaves the
root in place — the walked root is never a removal candidate, so the
claim's clause about the root itself fails. -/
theorem claim_C3_counterexample :
    visibleContents (FSTree.node [] []) = [] ∧
    remove_empty_dirs "r" (FSTree.node [] []) = (FSTree.node [] [], []) := by
  constructor
  · rfl
  · simp [remove_empty_dirs, sweepChildren]

/-- Success test on an Except value of the walker. -/
def isOkE {α : Type} (e : Except String α) : Bool :=
  match e with
  | .ok _ => true
  | .error _ => false

/-- Mapping a function over an Except value keeps its success. -/
theorem isOkE_map {α β : Type} (g : α → β) (e : Except String α) :
    isOkE (e.map g) = isOkE e := by
  cases e <;> rfl

/-- The per-directory file loop succeeds exactly when every media file
with a resolvable date has a succeeding move. -/
theorem processFiles_isOk (env : WalkEnv) (root : String) :
    ∀ files : List String,
      isOkE (processFiles env root files) =
        files.all (fun f => !(MEDIA_EXTS.contains (extOf f)) ||
          ((get_date_taken env.fileEnv (joinPath root f)).isNone ||
            env.moveOk (joinPath root f))) := by
  intro files
  induction files with
  | nil => rfl
  | cons f rest ih =>
    simp only [processFiles, List.all_cons]
    by_cases hm : extOf f ∈ MEDIA_EXTS
    · cases hd : get_date_taken env.fileEnv (joinPath root f) with
      | none => simp [hm, hd, isOkE_map, ih]
      | some d =>
        by_cases hmv : env.moveOk (joinPath root f)
        · simp [hm, hd, hmv, isOkE_map, ih]
        · simp [hm, hd, hmv, isOkE]
    · simp [hm, isOkE_map, ih]

/-- The walk over a subtree list succeeds exactly when the walk over
each member succeeds, given the member-level correspondence. -/
theorem processDirsW_isOk (env : WalkEnv) (root : String) :
    ∀ l : List (String × FSTree),
      (∀ nt ∈ l, ∀ r, isOkE (processWalk env r nt.2) = allMovesOk env r nt.2) →
      isOkE (processDirsW env root l) = allMovesOkDirs env root l := by
  intro l
  induction l with
  | nil => intro _; simp [processDirsW, allMovesOkDirs, isOkE]
  | cons a l ih =>
    intro h
    obtain ⟨n, t⟩ := a
    simp only [processDirsW, allMovesOkDirs]
    rw [← h (n, t) (by simp) (joinPath root n),
      ← ih (fun nt hm r => h nt (List.mem_cons_of_mem _ hm) r)]
    cases hpw : processWalk env (joinPath root n) t with
    | error e => simp [isOkE, Bind.bind, Except.bind]
    | ok a =>
      cases hpd : processDirsW env root l with
      | error e => simp [isOkE, Bind.bind, Except.bind, hpd]
      | ok b => simp [isOkE, Bind.bind, Except.bind, hpd, Pure.pure, Except.pure]

/-- C1 (amended): a failure raised while moving a single file is NOT
caught by the tree walker: no handler surrounds the move_file call, so
the exception aborts the walk at the failing file, the remaining files
are not visited and the sweep never runs; the walk of a source tree
completes without error exactly when every attempted move succeeds.
Failures while reading metadata or the modification time, by contrast,
are caught inside the date resolver. -/
theorem claim_C1 (env : WalkEnv) (root : String) (t : FSTree) :
    isOkE (processWalk env root t) = allMovesOk env root t := by
  induction t using FSTree.ind generalizing root with
  | _ dirs files ih =>
    have hd : isOkE (processDirsW env root
        (dirs.filter (fun nt => !EXCLUDE_DIRS.contains nt.1))) =
        allMovesOkDirs env root
          (dirs.filter (fun nt => !EXCLUDE_DIRS.contains nt.1)) :=
      processDirsW_isOk env root _
        (fun nt hm r => ih nt (List.mem_of_mem_filter hm) r)
    simp only [processWalk, allMovesOk]
    rw [← processFiles_isOk env root files, ← hd]
    cases hpf : processFiles env root files with
    | error e => simp [isOkE, Bind.bind, Except.bind]
    | ok a =>
      cases hpd : processDirsW env root
          (dirs.filter (fun nt => !EXCLUDE_DIRS.contains nt.1)) with
      | error e => simp [isOkE, Bind.bind, Except.bind, hpd]
      | ok b => simp [isOkE, Bind.bind, Except.bind, hpd, Pure.pure, Except.pure]

/-- Counterexample to C1 as stated: under abortEnv the move of r/a.jpg
fails, and the walk over a directory holding a.jpg and b.jpg does not
log-and-continue — it aborts with the exception, so b.jpg is never
processed and no action list is produced at all. -/
theorem claim_C1_counterexample :
    processWalk abortEnv "r" (FSTree.node [] ["a.jpg", "b.jpg"]) =
      Except.error (joinPath "r" "a.jpg") := by
  simp only [processWalk]
  have h : processFiles abortEnv "r" ["a.jpg", "b.jpg"] =
      Except.error (joinPath "r" "a.jpg") := rfl
  rw [h]
  rfl

/-- The fueled digit rendering does not depend on the fuel once the fuel
exceeds the number. -/
theorem natDecDigitsAux_fuel : ∀ f g n, n < f → n < g →
    natDecDigitsAux f n = natDecDigitsAux g n := by
  intro f
  induction f with
  | zero => intro g n h _; omega
  | succ f ihf =>
    intro g n hf hg
    cases g with
    | zero => omega
    | succ g =>
      by_cases h10 : n < 10
      · simp [natDecDigitsAux, h10]
      · simp only [natDecDigitsAux, if_neg h10]
        have hdiv : n / 10 < n := Nat.div_lt_self (by omega) (by omega)
        rw [ihf g (n / 10) (by omega) (by omega)]

/-- An adequately fueled digit rendering is never empty. -/
theorem natDecDigitsAux_ne_nil : ∀ f n, n < f → natDecDigitsAux f n ≠ [] := by
  intro f n h
  cases f with
  | zero => omega
  | succ f => by_cases h10 : n < 10 <;> simp [natDecDigitsAux, h10]

/-- Distinct decimal digits have distinct digit characters. -/
theorem natDigitChar_inj : ∀ a, a < 10 → ∀ b, b < 10 →
    natDigitChar a = natDigitChar b → a = b := by decide

/-- Decimal rendering is injective: distinct counters print as distinct
strings. -/
theorem natToDec_inj : ∀ m n, natToDec m = natToDec n → m = n := by
  intro m
  induction m using Nat.strong_induction_on with
  | _ m ih =>
    intro n h
    have hd : natDecDigitsAux (m + 1) m = natDecDigitsAux (n + 1) n := by
      have h2 := congrArg String.data h
      simpa [natToDec] using h2
    by_cases hm10 : m < 10 <;> by_cases hn10 : n < 10
    · simp only [natDecDigitsAux, if_pos hm10, if_pos hn10] at hd
      have hc : natDigitChar m = natDigitChar n := by injection hd
      exact natDigitChar_inj m (by omega) n (by omega) hc
    · exfalso
      simp only [natDecDigitsAux, if_pos hm10, if_neg hn10] at hd
      have hlen := congrArg List.length hd
      have hne := natDecDigitsAux_ne_nil n (n / 10)
        (Nat.div_lt_self (by omega) (by omega))
      cases hx : natDecDigitsAux n (n / 10) with
      | nil => exact hne hx
      | cons a l => rw [hx] at hlen; simp at hlen
    · exfalso
      simp only [natDecDigitsAux, if_neg hm10, if_pos hn10] at hd
      have hlen := congrArg List.length hd
      have hne := natDecDigitsAux_ne_nil m (m / 10)
        (Nat.div_lt_self (by omega) (by omega))
      cases hx : natDecDigitsAux m (m / 10) with
      | nil => exact hne hx
      | cons a l => rw [hx] at hlen; simp at hlen
    · simp only [natDecDigitsAux, if_neg hm10, if_neg hn10] at hd
      obtain ⟨hq, hr⟩ := List.append_inj' hd rfl
      have hdigit : m % 10 = n % 10 := by
        have hr2 : natDigitChar (m % 10) = natDigitChar (n % 10) := by
          injection hr
        exact natDigitChar_inj _ (Nat.mod_lt _ (by omega)) _
          (Nat.mod_lt _ (by omega)) hr2
      have hm' : m / 10 < m := Nat.div_lt_self (by omega) (by omega)
      have hn' : n / 10 < n := Nat.div_lt_self (by omega) (by omega)
      have hq2 : natToDec (m / 10) = natToDec (n / 10) := by
        apply congrArg String.mk
        calc natDecDigitsAux (m / 10 + 1) (m / 10)
            = natDecDigitsAux m (m / 10) :=
              natDecDigitsAux_fuel _ _ _ (by omega) (by omega)
          _ = natDecDigitsAux n (n / 10) := hq
          _ = natDecDigitsAux (n / 10 + 1) (n / 10) :=
              natDecDigitsAux_fuel _ _ _ (by omega) (by omega)
      have hdiv := ih (m / 10) hm' (n / 10) hq2
      omega

/-- The conflict name determines its counter. -/
theorem conflictName_inj (base ext : String) (m n : Nat)
    (h : conflictName base ext m = conflictName base ext n) : m = n := by
  have hd := congrArg String.data h
  simp only [conflictName, String.data_append, List.append_assoc] at hd
  have h1 := List.append_cancel_left hd
  have h2 := List.append_cancel_left h1
  have h3 := List.append_cancel_right h2
  exact natToDec_inj m n (String.ext h3)

/-- The conflict path determines its counter. -/
theorem conflictPath_inj (dest base ext : String) (m n : Nat)
    (h : conflictPath dest base ext m = conflictPath dest base ext n) : m = n := by
  apply conflictName_inj base ext
  have hd := congrArg String.data h
  simp only [conflictPath, joinPath, String.data_append, List.append_assoc] at hd
  have h1 := List.append_cancel_left hd
  have h2 := List.append_cancel_left h1
  exact String.ext h2

/-- Pigeonhole for the counter search: among any fs.length + 1
consecutive counters some candidate path is not an existing path, since
the candidates are pairwise distinct. -/
theorem exists_conflictPath_not_mem (fs : List String)
    (dest base ext : String) (c : Nat) :
    ∃ j, j < fs.length + 1 ∧ conflictPath dest base ext (c + j) ∉ fs := by
  by_contra hcon
  push_neg at hcon
  have hinj : Function.Injective
      (fun j : Fin (fs.length + 1) => conflictPath dest base ext (c + j.1)) := by
    intro a b hab
    have := conflictPath_inj dest base ext _ _ hab
    exact Fin.ext (by omega)
  have hsub : Finset.univ.image
      (fun j : Fin (fs.length + 1) => conflictPath dest base ext (c + j.1)) ⊆
      fs.toFinset := by
    intro x hx
    rw [Finset.mem_image] at hx
    obtain ⟨j, _, rfl⟩ := hx
    rw [List.mem_toFinset]
    exact hcon j.1 j.2
  have h1 : fs.length + 1 ≤ fs.toFinset.card := by
    calc fs.length + 1
        = (Finset.univ : Finset (Fin (fs.length + 1))).card := by simp
      _ = (Finset.univ.image
            (fun j : Fin (fs.length + 1) =>
              conflictPath dest base ext (c + j.1))).card :=
          (Finset.card_image_of_injective _ hinj).symm
      _ ≤ fs.toFinset.card := Finset.card_le_card hsub
  have h2 := fs.toFinset_card_le
  omega

/-- The counter loop returns the candidate of the least free counter at
or above its starting counter, given any free candidate within fuel
range. -/
theorem findFreeDest_spec (fs : List String) (dest base ext : String) :
    ∀ fuel c, (∃ j, j < fuel ∧ conflictPath dest base ext (c + j) ∉ fs) →
    ∃ j, j < fuel ∧
      findFreeDest fs dest base ext fuel c =
        some (conflictPath dest base ext (c + j)) ∧
      conflictPath dest base ext (c + j) ∉ fs ∧
      ∀ i, i < j → conflictPath dest base ext (c + i) ∈ fs := by
  intro fuel
  induction fuel with
  | zero =>
    intro c h
    obtain ⟨j, hj, _⟩ := h
    omega
  | succ fuel ih =>
    intro c h
    by_cases hm : conflictPath dest base ext c ∈ fs
    · obtain ⟨j, hj, hfree⟩ := h
      have hj0 : j ≠ 0 := by
        intro h0
        rw [h0, Nat.add_zero] at hfree
        exact hfree hm
      obtain ⟨j', rfl⟩ : ∃ j', j = j' + 1 := ⟨j - 1, by omega⟩
      have hstep : ∃ i, i < fuel ∧ conflictPath dest base ext (c + 1 + i) ∉ fs :=
        ⟨j', by omega, by
          rw [show c + 1 + j' = c + (j' + 1) from by omega]
          exact hfree⟩
      obtain ⟨i, hi, heq, hfree2, hmin⟩ := ih (c + 1) hstep
      refine ⟨i + 1, by omega, ?_, ?_, ?_⟩
      · simp only [findFreeDest, if_pos hm]
        rw [heq, show c + 1 + i = c + (i + 1) from by omega]
      · rw [show c + (i + 1) = c + 1 + i from by omega]
        exact hfree2
      · intro k hk
        cases k with
        | zero =>
          rw [Nat.add_zero]
          exact hm
        | succ k' =>
          rw [show c + (k' + 1) = c + 1 + k' from by omega]
          exact hmin k' (by omega)
    · refine ⟨0, by omega, ?_, ?_, ?_⟩
      · simp only [findFreeDest, if_neg hm, Nat.add_zero]
      · rw [Nat.add_zero]
        exact hm
      · intro i hi
        omega

/-- C4: move_file never overwrites: its chosen destination is not an
existing path.  When the plain basename is free it is chosen; when it is
taken, the chosen name is base_N.ext for the least counter N at least 1
whose candidate does not exist, every smaller positive counter naming an
existing file — so a second same-named file gets counter 1 and a third
gets counter 2. -/
theorem claim_C4 (fs : List String) (src dest : String) :
    ∃ p, move_file_dest fs src dest = some p ∧ p ∉ fs ∧
      (joinPath dest (basename src) ∉ fs → p = joinPath dest (basename src)) ∧
      (joinPath dest (basename src) ∈ fs →
        ∃ n, 1 ≤ n ∧
          p = conflictPath dest (splitextB (basename src)).1
            (splitextB (basename src)).2 n ∧
          ∀ k, 1 ≤ k → k < n →
            conflictPath dest (splitextB (basename src)).1
              (splitextB (basename src)).2 k ∈ fs) := by
  by_cases hmem : joinPath dest (basename src) ∈ fs
  · obtain ⟨j, hj, hfree⟩ := exists_conflictPath_not_mem fs dest
      (splitextB (basename src)).1 (splitextB (basename src)).2 1
    obtain ⟨i, hi, heq, hfree2, hmin⟩ := findFreeDest_spec fs dest
      (splitextB (basename src)).1 (splitextB (basename src)).2
      (fs.length + 1) 1 ⟨j, hj, hfree⟩
    refine ⟨conflictPath dest (splitextB (basename src)).1
      (splitextB (basename src)).2 (1 + i), ?_, hfree2, ?_, ?_⟩
    · simp only [move_file_dest, if_pos hmem]
      exact heq
    · intro hc
      exact absurd hmem hc
    · intro _
      refine ⟨1 + i, by omega, rfl, ?_⟩
      intro k hk1 hki
      have hk := hmin (k - 1) (by omega)
      rw [show 1 + (k - 1) = k from by omega] at hk
      exact hk
  · refine ⟨joinPath dest (basename src), ?_, hmem, fun _ => rfl,
      fun hc => absurd hc hmem⟩
    simp only [move_file_dest, if_neg hmem]

end PhotoSorter
